import Mathlib

/-!
Shallow embedding of the entity-resolution and schema-aware query-planning
core of the orion-salesforce-mcp-server repository, together with proofs of
the specification's claims about it.

JavaScript strings are modelled as Lean `String`s (sequences of characters);
JavaScript numbers are modelled as rational numbers `ℚ` (every numeric
literal appearing in this code is a small decimal fraction, and all the
properties proved here concern order/threshold comparisons that are exact
at this scale).  JavaScript `Map`s are modelled as association lists in
insertion order, and thrown exceptions of the remote collaborators as
`Except` values.
-/

/- Core `Rat` arithmetic is sealed behind `irreducible` by Mathlib; re-open it
locally so that concrete runs of the embedded code can be evaluated by the
kernel (`decide`). -/
attribute [local semireducible] Rat.add Rat.mul Rat.sub Rat.inv

set_option maxRecDepth 20000

namespace OrionSpec

/-! ### JavaScript string primitives -/

/-- JS `\w` character class: `[A-Za-z0-9_]`. -/
def isWordChar (c : Char) : Bool :=
  ('a' ≤ c && c ≤ 'z') || ('A' ≤ c && c ≤ 'Z') || ('0' ≤ c && c ≤ '9') || c = '_'

/-- ASCII lower-casing of one character, as JS `toLowerCase` acts on the
ASCII range (the source only ever lower-cases ASCII identifiers/labels). -/
def charLower (c : Char) : Char :=
  if 'A' ≤ c && c ≤ 'Z' then Char.ofNat (c.toNat + 32) else c

/-- JS `String.prototype.toLowerCase` (ASCII fragment). -/
def jsToLower (s : String) : String := ⟨s.data.map charLower⟩

/-- Is `p` a prefix of `l`? (plain structural Boolean check). -/
def listStartsWith [DecidableEq α] : List α → List α → Bool
  | [], _ => true
  | _ :: _, [] => false
  | a :: as, b :: bs => a = b && listStartsWith as bs

/-- Does `p` occur as a contiguous sublist of `l`? -/
def listHasInfix [DecidableEq α] (p : List α) : List α → Bool
  | [] => listStartsWith p []
  | b :: bs => listStartsWith p (b :: bs) || listHasInfix p bs

/-- JS `String.prototype.includes`. -/
def jsIncludes (s sub : String) : Bool := listHasInfix sub.data s.data

/-- JS `String.prototype.startsWith`. -/
def jsStartsWith (s p : String) : Bool := listStartsWith p.data s.data

/-- JS `String.prototype.endsWith`. -/
def jsEndsWith (s p : String) : Bool := listStartsWith p.data.reverse s.data.reverse

/-- Split a character list at a separator character (JS `split(sep)`). -/
def splitCharAux (sep : Char) : List Char → List Char → List String
  | [], cur => [⟨cur.reverse⟩]
  | c :: cs, cur =>
    if c = sep then ⟨cur.reverse⟩ :: splitCharAux sep cs []
    else splitCharAux sep cs (c :: cur)

/-- JS `String.prototype.split` with a single-character separator. -/
def jsSplit (s : String) (sep : Char) : List String := splitCharAux sep s.data []

/-- JS `\s`-removal `replace(/\s+/g, '')`: drop every whitespace character. -/
def removeWhitespace (s : String) : String := ⟨s.data.filter (fun c => !c.isWhitespace)⟩

/-- JS `replace(/__c$/, '')`: strip one trailing `__c` if present. -/
def stripCustomSuffix (s : String) : String :=
  if jsEndsWith s "__c" then ⟨s.data.take (s.data.length - 3)⟩ else s

/-- The maximal runs of `\w` characters of a string, in order.  A `\b`-delimited
regular expression made of word characters matches exactly these runs (a word
boundary can only sit at the edges of such a run), so the source's
`lower.match(/\b(w1|w2|...)\b/g)` returns precisely the runs that equal one of
the alternatives, in positional order. -/
def wordRuns (s : String) : List String :=
  go s.data []
where
  go : List Char → List Char → List String
    | [], cur => if cur.isEmpty then [] else [⟨cur.reverse⟩]
    | c :: cs, cur =>
      if isWordChar c then go cs (c :: cur)
      else if cur.isEmpty then go cs [] else ⟨cur.reverse⟩ :: go cs []

/-! ### Similarity kernel (`levenshteinDistance`, `calculateSimilarity`) -/

/-- The dynamic-programming matrix of `levenshteinDistance(str1, str2)`:
`levMatrix str1 str2 gas i j` is `matrix[i][j]` of the source (row index `i`
walks `str2`, column index `j` walks `str1`).  The recurrence consumes at
least one unit of `i + j` per step, so any `gas > i + j` makes the fuel
argument inert; it exists only to make the recursion structural. -/
def levMatrix (str1 str2 : List Char) : Nat → Nat → Nat → Nat
  | 0, _, _ => 0
  | _ + 1, 0, j => j
  | _ + 1, i + 1, 0 => i + 1
  | gas + 1, i + 1, j + 1 =>
    if str2.getD i ' ' = str1.getD j ' ' then
      levMatrix str1 str2 gas i j
    else
      min (levMatrix str1 str2 gas i j + 1)
        (min (levMatrix str1 str2 gas (i + 1) j + 1)
          (levMatrix str1 str2 gas i (j + 1) + 1))

/-- Source `levenshteinDistance(str1, str2)` returns `matrix[str2.length][str1.length]`. -/
def levenshteinDistance (str1 str2 : String) : Nat :=
  levMatrix str1.data str2.data (str2.length + str1.length + 1) str2.length str1.length

/-- Source `calculateSimilarity(str1, str2)`: 0 on an empty/falsy argument, otherwise
`(longer.length - levenshteinDistance(longer, shorter)) / longer.length`. -/
def calculateSimilarity (str1 str2 : String) : ℚ :=
  if str1 = "" || str2 = "" then 0
  else
    let longer := if str1.length > str2.length then str1 else str2
    let shorter := if str1.length > str2.length then str2 else str1
    if longer.length = 0 then 1
    else ((longer.length : ℚ) - (levenshteinDistance longer shorter : ℚ)) / (longer.length : ℚ)

/-! ### Classification rules -/

/-- The fixed denylist of `isProblematicSystemObject`. -/
def exactProblematicObjects : List String :=
  ["FlowOrchestrationWorkItem",
   "ProcessInstance",
   "ProcessInstanceHistory",
   "ProcessInstanceStep",
   "ProcessInstanceWorkitem",
   "WorkflowAlert",
   "WorkflowEmailRecipient",
   "WorkflowFieldUpdate",
   "WorkflowKnowledgePublish",
   "WorkflowOutboundMessage",
   "WorkflowRule",
   "WorkflowTask",
   "UserRecordAccess",
   "ObjectPermissions",
   "FieldPermissions",
   "SetupEntityAccess",
   "AsyncApexJob",
   "ApexTestQueueItem",
   "ApexTestResult",
   "ApexTestRunResult",
   "SearchActivity",
   "RecentlyViewed",
   "LoginHistory",
   "EventLogFile",
   "DuplicateRecordItem",
   "DuplicateRecordSet",
   "EntitySubscription",
   "FeedItem",
   "FeedComment",
   "UserFeed",
   "NewsFeed",
   "UserDefinedLabelAssignment",
   "UserDefinedLabel",
   "ValidationRule",
   "WorkflowAlert",
   "RecordType",
   "BusinessProcess",
   "PicklistValueInfo",
   "StandardValueSet",
   "GlobalValueSet"]

/-- Case-insensitive prefix test, as a JS `/^pat/i.test(s)` with a literal
pattern. -/
def testStart (s pat : String) : Bool := jsStartsWith (jsToLower s) (jsToLower pat)

/-- Case-insensitive suffix test (`/pat$/i.test(s)`). -/
def testEnd (s pat : String) : Bool := jsEndsWith (jsToLower s) (jsToLower pat)

/-- Case-insensitive containment test (`/pat/i.test(s)`). -/
def testIn (s pat : String) : Bool := jsIncludes (jsToLower s) (jsToLower pat)

/-- Source `isProblematicSystemObject(apiName)`: the absolute "forbidden" classifier. -/
def isProblematicSystemObject (apiName : String) : Bool :=
  if exactProblematicObjects.contains apiName then true
  else if testStart apiName "FlowOrchestration" then true
  else if testStart apiName "ProcessInstance" then true
  else if testStart apiName "Workflow" then true
  else if testEnd apiName "WorkItem" then true
  else if testStart apiName "UserDefined" then true
  else if testStart apiName "Metadata" then true
  else if testStart apiName "Setup" then true
  else if testEnd apiName "Assignment" || testEnd apiName "Rule" ||
          testEnd apiName "Process" || testEnd apiName "Alert" then true
  else false

/-- The fixed denylist inside `isSystemObject`. -/
def commonSystemObjects : List String :=
  ["EntitySubscription", "FeedItem", "FeedComment", "UserFeed", "NewsFeed",
   "DuplicateRecordItem", "DuplicateRecordSet", "RecordAction", "RecordType",
   "BusinessHours", "Holiday", "Territory", "FiscalYearSettings",
   "CurrencyType", "Category", "CategoryNode", "CategoryData",
   "FlowOrchestrationWorkItem", "ProcessException", "AssignmentRule",
   "Queue", "Group", "GroupMember", "QueueSobject",
   "ActivityHistory", "OpenActivity", "CombinedAttachment", "NoteAndAttachment",
   "AttachedContentDocument", "AttachedContentNote",
   "SearchActivity", "RecentlyViewed", "OwnedItemHistory"]

/-- Test `/^[a-zA-Z0-9_]+__c$/.test(apiName)` (case-sensitive). -/
def isCustomApiName (apiName : String) : Bool :=
  !apiName.data.isEmpty && apiName.data.all (fun c => isWordChar c) && jsEndsWith apiName "__c"

/-- Source `isSystemObject(apiName)`: the broader (non-absolute) system classifier. -/
def isSystemObject (apiName : String) : Bool :=
  if testEnd apiName "__Share" || testEnd apiName "__History" ||
     testEnd apiName "__Feed" || testEnd apiName "__Tag" then true
  else if testStart apiName "Flow" || testStart apiName "Process" ||
          testStart apiName "WorkItem" || testStart apiName "Orchestration" then true
  else if testIn apiName "FlowOrchestration" || testIn apiName "ProcessInstance" ||
          testIn apiName "WorkflowRule" then true
  else if testStart apiName "Platform" || testStart apiName "Setup" ||
          testStart apiName "Lightning" || testStart apiName "Component" ||
          testStart apiName "Custom" || testStart apiName "Static" ||
          testStart apiName "Dynamic" then true
  else if testIn apiName "Permission" || testIn apiName "UserRole" ||
          testIn apiName "Profile" || testIn apiName "UserLicense" ||
          testIn apiName "Login" || testIn apiName "Session" then true
  else if testIn apiName "ObjectPermissions" || testIn apiName "FieldPermissions" ||
          testIn apiName "UserRecordAccess" then true
  else if testIn apiName "Organization" || testIn apiName "Domain" ||
          testIn apiName "Network" || testIn apiName "Site" ||
          testIn apiName "Community" then true
  else if testIn apiName "AsyncApex" || testIn apiName "ApexClass" ||
          testIn apiName "ApexTrigger" || testIn apiName "ApexPage" ||
          testIn apiName "ApexComponent" then true
  else if testIn apiName "ChangeEvent" || testIn apiName "ChangeTracking" ||
          testIn apiName "DataChangeLog" || testIn apiName "AuditTrail" then true
  else if testIn apiName "ContentDocument" || testIn apiName "ContentVersion" ||
          testIn apiName "ContentWorkspace" || testIn apiName "Document" ||
          testIn apiName "Folder" then true
  else if testStart apiName "Attached" || testStart apiName "Combined" ||
          testStart apiName "Collaboration" then true
  else if testIn apiName "CallCenter" || testIn apiName "EmailTemplate" ||
          testIn apiName "MailmergeTemplate" || testIn apiName "WebLink" ||
          testIn apiName "Dashboard" then true
  else if commonSystemObjects.contains apiName then true
  else if isCustomApiName apiName then
    (testEnd apiName "System__c" || testEnd apiName "Platform__c" ||
     testEnd apiName "Setup__c" || testEnd apiName "Config__c" ||
     testEnd apiName "Settings__c" || testEnd apiName "Admin__c")
  else false

/-! ### Data model of the resolver -/

/-- One record of the remote object lister (`sf.listSObjects()`).  A missing
JS `label`/`labelPlural` is modelled by `""` (the source only ever reads them
through `|| ''` or as another falsy-guarded value, for which `""` and
`undefined` behave identically). -/
structure SObjectInfo where
  name : String
  label : String
  labelPlural : String
  custom : Bool
deriving DecidableEq, Repr

/-- A catalog descriptor (the element type of the catalog's value lists). -/
structure CatEntry where
  apiName : String
  label : String
  labelPlural : String
  custom : Bool
  matchedBy : String
deriving DecidableEq, Repr

/-- The comprehensive catalog: a JS `Map` in insertion order from normalized
name-variant keys to descriptor lists. -/
abbrev Catalog := List (String × List CatEntry)

/-- JS `Map.prototype.get`. -/
def mapGet (m : List (String × β)) (k : String) : Option β :=
  (m.find? (fun e => e.1 = k)).map (·.2)

/-- Map update `catalog.get(key).push(entry)` preceded by `catalog.set(key, [])` when the
key is absent: append `entry` to the key's list, creating the key at the end
of the insertion order if needed. -/
def catalogAdd (cat : Catalog) (key : String) (entry : CatEntry) : Catalog :=
  if (cat.find? (fun e => e.1 = key)).isSome then
    cat.map (fun e => if e.1 = key then (e.1, e.2 ++ [entry]) else e)
  else
    cat ++ [(key, [entry])]

/-- Source `buildComprehensiveCatalog(sf, { includeSystemObjects })`.  The remote
lister is modelled by its outcome: `Except.error` for a thrown exception
(caught by the source, which then returns an empty map). -/
def buildComprehensiveCatalog (sfResult : Except String (List SObjectInfo))
    (includeSystemObjects : Bool) : Catalog :=
  match sfResult with
  | .error _ => []
  | .ok sobjects =>
    sobjects.foldl (fun catalog obj =>
      if isProblematicSystemObject obj.name then catalog
      else if !includeSystemObjects && isSystemObject obj.name then catalog
      else
        let apiName := obj.name
        let entries :=
          ([(jsToLower apiName, "api"),
            (jsToLower obj.label, "label"),
            (jsToLower obj.labelPlural, "labelPlural")].filter (fun e => e.1 ≠ "")) ++
          [(jsToLower (stripCustomSuffix apiName), "api_short"),
           (jsToLower (removeWhitespace obj.label), "label_compact")]
        entries.foldl (fun cat e =>
          catalogAdd cat e.1 ⟨apiName, obj.label, obj.labelPlural, obj.custom, e.2⟩) catalog)
      []

/-- Org profile: configured synonym tables and "frequently used" objects. -/
structure OrgProfile where
  objectSynonyms : List (String × List String) := []
  frequentObjects : List String := []
deriving Repr

/-- One user-preference record (`userPreferences[apiName]`); a missing
`lastUsed` is `0` via `|| 0`. -/
structure UserPref where
  count : ℚ
  successRate : ℚ
  lastUsed : ℚ
deriving Repr

/-! ### Keyword extraction -/

/-- The eight `\b(...|...)\b` business-term alternation lists of
`extractObjectKeywords`, in source order. -/
def businessPatterns : List (List String) :=
  [["account", "accounts", "customer", "customers", "client", "clients"],
   ["contact", "contacts", "person", "people", "individual"],
   ["opportunity", "opportunities", "deal", "deals", "sale", "sales"],
   ["lead", "leads", "prospect", "prospects"],
   ["case", "cases", "ticket", "tickets", "issue", "issues"],
   ["product", "products", "item", "items"],
   ["order", "orders", "purchase", "purchases"],
   ["invoice", "invoices", "bill", "bills"]]

/-- Does a `\w`-run match `/[a-z][a-z0-9_]*__c/` in full?  (The run is all
word characters already, so only the first character and the suffix are
constrained; a `\b`-anchored match of this pattern is exactly a full run,
because the mandatory `__c` tail must be followed by a word boundary.) -/
def isCustomTokenLower (t : String) : Bool :=
  match t.data with
  | [] => false
  | c :: _ => ('a' ≤ c && c ≤ 'z') && jsEndsWith t "__c"

/-- Ditto for `/[A-Z][a-zA-Z0-9_]*__c/` over the raw question. -/
def isApiToken (t : String) : Bool :=
  match t.data with
  | [] => false
  | c :: _ => ('A' ≤ c && c ≤ 'Z') && jsEndsWith t "__c"

/-- JS `Set.prototype.add` on an insertion-ordered list. -/
def addKw (l : List String) (k : String) : List String :=
  if l.contains k then l else l ++ [k]

/-- Source `extractObjectKeywords(question, orgProfile)`. -/
def extractObjectKeywords (question : String) (orgProfile : OrgProfile) : List String :=
  let lower := jsToLower question
  let toks := wordRuns lower
  let k1 := businessPatterns.foldl (fun acc wl =>
    (toks.filter (fun t => wl.contains t)).foldl addKw acc) []
  let k2 := (toks.filter isCustomTokenLower).foldl addKw k1
  let k3 := ((wordRuns question).filter isApiToken).foldl
    (fun acc t => addKw acc (jsToLower t)) k2
  let k4 := orgProfile.objectSynonyms.foldl (fun acc entry =>
    entry.2.foldl (fun acc2 synonym =>
      if jsIncludes lower (jsToLower synonym) then
        addKw (addKw acc2 (jsToLower synonym)) (jsToLower entry.1)
      else acc2) acc) k3
  k4.filter (fun k => k.length > 2)

/-! ### Multi-stage matching -/

/-- A match candidate: a catalog descriptor plus confidence, match type and
the keyword that produced it. -/
structure MatchCandidate where
  apiName : String
  label : String
  labelPlural : String
  custom : Bool
  matchedBy : String
  confidence : ℚ
  matchType : String
  keyword : String
deriving DecidableEq, Repr

/-- Spread `{ ...obj, confidence, matchType, keyword }` over a catalog descriptor. -/
def mkCand (e : CatEntry) (confidence : ℚ) (matchType keyword : String) : MatchCandidate :=
  ⟨e.apiName, e.label, e.labelPlural, e.custom, e.matchedBy, confidence, matchType, keyword⟩

/-- Source `findExactMatches(keyword, catalog)`. -/
def findExactMatches (keyword : String) (catalog : Catalog) : List CatEntry :=
  (mapGet catalog keyword).getD []

/-- Source `findPartialMatches(keyword, catalog)`: substring containment in either
direction; the computed length-ratio confidence is carried in the pair (it is
overwritten by the caller, exactly as in the source). -/
def findPartialMatches (keyword : String) (catalog : Catalog) : List (CatEntry × ℚ) :=
  catalog.foldl (fun ms e =>
    if jsIncludes e.1 keyword || jsIncludes keyword e.1 then
      let confidence : ℚ :=
        (min keyword.length e.1.length : ℚ) / (max keyword.length e.1.length : ℚ)
      ms ++ e.2.map (fun obj => (obj, confidence))
    else ms) []

/-- Source `findFuzzyMatches(keyword, catalog, threshold)`, already sorted by
descending similarity as in the source (JS `sort` is stable; a stable
insertion sort computes the same list). -/
def insertSorted (lt : α → α → Bool) (x : α) : List α → List α
  | [] => [x]
  | y :: ys => if lt y x then y :: insertSorted lt x ys else x :: y :: ys

/-- Stable sort (the unique stable ordering JS `Array.prototype.sort`
produces for a consistent comparator). -/
def stableSortBy (lt : α → α → Bool) : List α → List α
  | [] => []
  | x :: xs => insertSorted lt x (stableSortBy lt xs)

/-- Source `findFuzzyMatches(keyword, catalog, threshold)`. -/
def findFuzzyMatches (keyword : String) (catalog : Catalog) (threshold : ℚ) :
    List (CatEntry × ℚ) :=
  stableSortBy (fun a b => a.2 > b.2)
    (catalog.foldl (fun ms e =>
      let similarity := calculateSimilarity keyword e.1
      if similarity ≥ threshold then
        ms ++ e.2.map (fun obj => (obj, similarity))
      else ms) [])

/-- Stage 1 of `resolveObjectsIntelligently`: exact hits, confidence 1.0. -/
def exactStageMatches (keywords : List String) (catalog : Catalog) : List MatchCandidate :=
  keywords.foldl (fun ms keyword =>
    ms ++ (findExactMatches keyword catalog).map
      (fun m => mkCand m 1 "exact" keyword)) []

/-- Stage 2: partial hits; the push site overrides the ratio with 0.8. -/
def partialStageMatches (keywords : List String) (catalog : Catalog) : List MatchCandidate :=
  keywords.foldl (fun ms keyword =>
    ms ++ (findPartialMatches keyword catalog).map
      (fun m => mkCand m.1 (8/10) "partial" keyword)) []

/-- Stage 3: fuzzy hits keep their similarity as confidence. -/
def fuzzyStageMatches (keywords : List String) (catalog : Catalog) (threshold : ℚ) :
    List MatchCandidate :=
  keywords.foldl (fun ms keyword =>
    ms ++ (findFuzzyMatches keyword catalog threshold).map
      (fun m => mkCand m.1 m.2 "fuzzy" keyword)) []

/-- Stages 1–3 of `resolveObjectsIntelligently`: exact and partial pushes,
then the fuzzy stage guarded by the source's check that no candidate so far has confidence above 0.7. -/
def stageMatches (keywords : List String) (catalog : Catalog) (threshold : ℚ)
    (enableFuzzySearch : Bool) : List MatchCandidate :=
  let ep := exactStageMatches keywords catalog ++ partialStageMatches keywords catalog
  if enableFuzzySearch && (ep.filter (fun m => m.confidence > 7/10)).length = 0 then
    ep ++ fuzzyStageMatches keywords catalog threshold
  else ep

/-- The six generic business terms of step 4a of the re-ranker. -/
def genericTerms : List String :=
  ["item", "product", "inventory", "order", "customer", "location"]

/-- Source `rankByContextAndPreferences(matches, question, orgProfile, userPreferences)`.
The wall clock `Date.now()` is passed in as `now` (milliseconds).  The
diagnostic `reasonBoosts` strings attached by the source are dropped: no
consumer of the ranked list reads them. -/
def rankByContextAndPreferences (ms : List MatchCandidate) (question : String)
    (orgProfile : OrgProfile) (userPreferences : List (String × UserPref))
    (now : ℚ) : List MatchCandidate :=
  let questionLower := jsToLower question
  stableSortBy (fun a b => a.confidence > b.confidence)
    (ms.map (fun m =>
      let apiNameL := jsToLower m.apiName
      let b1 : ℚ :=
        if m.custom then 0 else
          (if jsIncludes questionLower "customer" && m.apiName == "Account" then 2/10 else 0) +
          (if jsIncludes questionLower "person" && m.apiName == "Contact" then 2/10 else 0) +
          (if jsIncludes questionLower "deal" && m.apiName == "Opportunity" then 2/10 else 0) +
          (if jsIncludes questionLower "case" && m.apiName == "Case" then 2/10 else 0) +
          (if jsIncludes questionLower "lead" && m.apiName == "Lead" then 2/10 else 0)
      let b2 : ℚ := if orgProfile.frequentObjects.contains m.apiName then 15/100 else 0
      let b3 : ℚ :=
        match mapGet userPreferences m.apiName with
        | none => 0
        | some p =>
          let usageBoost := min (3/10 : ℚ) (p.count * (2/100))
          let successBoost := p.successRate * (2/10)
          let daysSinceLastUse := (now - p.lastUsed) / (1000 * 60 * 60 * 24)
          let recencyBoost := max (0 : ℚ) (1/10 - daysSinceLastUse * (1/100))
          usageBoost + successBoost + recencyBoost
      let b4 : ℚ :=
        (if (jsIncludes questionLower "inventory" || jsIncludes questionLower "stock") &&
            (jsIncludes apiNameL "item" || jsIncludes apiNameL "product") then 25/100 else 0) +
        (if (jsIncludes questionLower "location" || jsIncludes questionLower "warehouse") &&
            (jsIncludes apiNameL "location" || jsIncludes apiNameL "warehouse") then 25/100 else 0)
      let b4a : ℚ :=
        if m.custom && jsIncludes m.apiName "__" then
          genericTerms.foldl (fun acc term =>
            if jsIncludes questionLower term && jsIncludes apiNameL term then acc + 8/10
            else acc) 0 +
          (if jsStartsWith m.apiName "owsc__" then 3/10 else 0) +
          (if (jsIncludes questionLower "object item" || jsIncludes questionLower "found in" ||
               jsIncludes questionLower "located in") && jsIncludes apiNameL "item"
           then 2 else 0) +
          (if (jsIncludes questionLower " items" || jsIncludes questionLower "items " ||
               jsIncludes questionLower "item ") && m.apiName == "owsc__Item__c"
           then 3 else 0)
        else 0
      let b5 : ℚ :=
        (if isProblematicSystemObject m.apiName then -2 else 0) +
        (if isSystemObject m.apiName then -(5/10) else 0)
      let b6 : ℚ :=
        if m.custom && (jsIncludes questionLower "business" || jsIncludes questionLower "custom")
        then 5/100 else 0
      let contextBoost := b1 + b2 + b3 + b4 + b4a + b5 + b6
      { m with confidence := min 1 (m.confidence + contextBoost) }))

/-- Source `deduplicateMatches(matches)`: first occurrence per `apiName` wins. -/
def deduplicateMatches (ms : List MatchCandidate) : List MatchCandidate :=
  (ms.foldl (fun (acc : List String × List MatchCandidate) m =>
    if acc.1.contains m.apiName then acc
    else (acc.1 ++ [m.apiName], acc.2 ++ [m])) ([], [])).2

/-- Source `buildClarificationMessage(matches, keywords)`; JS `null` is `none`. -/
def buildClarificationMessage (ms : List MatchCandidate) (keywords : List String) :
    Option String :=
  if ms.length = 0 then
    some ("I couldn't find any Salesforce objects matching \"" ++
      String.intercalate ", " keywords ++
      "\". Try using standard names like \"Account\", \"Contact\", or \"Opportunity\", or provide the exact API name.")
  else if ms.length = 1 then none
  else
    some ("I found multiple objects matching your request. Did you mean: " ++
      String.intercalate ", " ((ms.take 3).map (fun m =>
        "\"" ++ (if m.label = "" then m.apiName else m.label) ++ "\" (" ++ m.apiName ++ ")")) ++
      "?")

/-- The `options` argument of `resolveObjectsIntelligently`, with its defaults. -/
structure ResolveOptions where
  threshold : ℚ := 6/10
  maxSuggestions : Nat := 5
  includeSystemObjects : Bool := false
  enableFuzzySearch : Bool := true
  userPreferences : List (String × UserPref) := []

/-- The result record of `resolveObjectsIntelligently`. -/
structure ResolutionResult where
  success : Bool
  primaryMatch : Option MatchCandidate
  suggestions : List MatchCandidate
  confidence : ℚ
  needsClarification : Bool
  clarificationMessage : Option String
  usedPreferences : Bool
deriving Repr

/-- Source `resolveObjectsIntelligently(question, sf, orgProfile, options)`.  The
remote lister handle `sf` is modelled by the outcome of its single
`listSObjects()` call, and `Date.now()` by the `now` parameter. -/
def resolveObjectsIntelligently (sfResult : Except String (List SObjectInfo))
    (question : String) (orgProfile : OrgProfile) (opts : ResolveOptions)
    (now : ℚ) : ResolutionResult :=
  let catalog := buildComprehensiveCatalog sfResult opts.includeSystemObjects
  let keywords := extractObjectKeywords question orgProfile
  let ms := stageMatches keywords catalog opts.threshold opts.enableFuzzySearch
  let rankedMatches := rankByContextAndPreferences ms question orgProfile
    opts.userPreferences now
  let deduped := deduplicateMatches rankedMatches
  let topMatches := deduped.take opts.maxSuggestions
  { success := decide (0 < topMatches.length)
    primaryMatch := topMatches.head?
    suggestions := topMatches
    confidence := (topMatches.head?.map (·.confidence)).getD 0
    needsClarification :=
      decide (1 < topMatches.length) &&
        (match topMatches.head? with
         | some m => decide (m.confidence < 9/10)
         | none => false)
    clarificationMessage := buildClarificationMessage topMatches keywords
    usedPreferences := !opts.userPreferences.isEmpty }

/-! ### Schema index and relationship planner -/

/-- The label fields of a raw describe payload that the planner reads. -/
structure DescribeInfo where
  label : String
  labelPlural : String
deriving DecidableEq, Repr

/-- One entry of the describe index (`index.objects[apiName]`). -/
structure IndexedObject where
  describe : Option DescribeInfo
  readable : List String
  relationships : List (String × String)
  childRelationships : List (String × String)
deriving DecidableEq, Repr

/-- The describe index (`{ objects: {...} }`), keyed by object API name. -/
structure DescribeIndex where
  objects : List (String × IndexedObject)
deriving DecidableEq, Repr

/-- One hop of a relationship path (`{ type, relName, to }`). -/
structure Hop where
  hopType : String
  relName : String
  toApi : String
deriving DecidableEq, Repr

/-- One entry pushed into `results` by the planner's DFS. -/
structure PlanEntry where
  objectApiName : String
  path : List Hop
  score : ℚ
  depth : Nat
deriving DecidableEq, Repr

/-- The mutable state of the planner's DFS (`results` and `visited`). -/
structure PlanState where
  results : List PlanEntry
  visited : List String
deriving Repr

/-- Constant `const maxDepth = 3` of `planRelationshipPath`. -/
def planMaxDepth : Nat := 3

/-- The object's own match text:
`` `${objectApiName} ${label} ${labelPlural}`.toLowerCase() ``. -/
def hayOf (objectApiName : String) (obj : IndexedObject) : String :=
  jsToLower (objectApiName ++ " " ++ ((obj.describe.map (·.label)).getD "") ++ " " ++
    ((obj.describe.map (·.labelPlural)).getD ""))

/-- The neighbor text: parent then child target API names, joined by spaces
and lower-cased. -/
def neighborTextOf (obj : IndexedObject) : String :=
  jsToLower (String.intercalate " "
    (obj.relationships.map (·.2) ++ obj.childRelationships.map (·.2)))

/-- The score of a visited object: +1 per keyword contained in its own text,
then +0.8 per keyword contained in the neighbor text. -/
def keywordScore (targetKeywords : List String) (hay neighborText : String) : ℚ :=
  targetKeywords.foldl (fun s kw =>
    let k := jsToLower kw
    if k ≠ "" && jsIncludes hay k then s + 1 else s) 0 +
  targetKeywords.foldl (fun s kw =>
    let k := jsToLower kw
    if k ≠ "" && jsIncludes neighborText k then s + 8/10 else s) 0

/-- The DFS of `planRelationshipPath`.  The `gas` argument only makes the
recursion structural: every call consumes one unit while `depth` grows by
one, and the source's own `depth > maxDepth` cut fires before `gas` can
reach zero when started with `gas > maxDepth + 1 - depth`. -/
def dfs (idx : DescribeIndex) (targetKeywords : List String) :
    Nat → String → List Hop → Nat → PlanState → PlanState
  | 0, _, _, _, st => st
  | gas + 1, objectApiName, path, depth, st =>
    if depth > planMaxDepth then st
    else if st.visited.contains objectApiName then st
    else if isProblematicSystemObject objectApiName then st
    else
      let st1 : PlanState := ⟨st.results, st.visited ++ [objectApiName]⟩
      match mapGet idx.objects objectApiName with
      | none => st1
      | some obj =>
        let hay := hayOf objectApiName obj
        let neighborText := neighborTextOf obj
        let score := keywordScore targetKeywords hay neighborText
        let st2 : PlanState := ⟨st1.results ++ [⟨objectApiName, path, score, depth⟩], st1.visited⟩
        let st3 := obj.relationships.foldl (fun s rel =>
          dfs idx targetKeywords gas rel.2 (path ++ [⟨"parent", rel.1, rel.2⟩]) (depth + 1) s) st2
        obj.childRelationships.foldl (fun s rel =>
          dfs idx targetKeywords gas rel.2 (path ++ [⟨"child", rel.1, rel.2⟩]) (depth + 1) s) st3

/-- All entries accumulated by the DFS of `planRelationshipPath`. -/
def planResults (describeIndex : DescribeIndex) (startObject : String)
    (targetKeywords : List String) : List PlanEntry :=
  (dfs describeIndex targetKeywords (planMaxDepth + 2) startObject [] 0 ⟨[], []⟩).results

/-- Source `planRelationshipPath(describeIndex, startObject, targetKeywords)`:
sort by descending score, tie-broken by shallower depth (JS stable sort),
and return the first entry (`undefined`, i.e. `none`, when there is none). -/
def planRelationshipPath (describeIndex : DescribeIndex) (startObject : String)
    (targetKeywords : List String) : Option PlanEntry :=
  (stableSortBy (fun a b => a.score > b.score || (a.score = b.score && a.depth < b.depth))
    (planResults describeIndex startObject targetKeywords)).head?

/-- Source `isFieldAllowed(index, objectApiName, fieldName)` from the schema-index
module: dotted names are checked on their first two `.`-separated segments
only, simple names against the readable set or the `Id`/`Name` identifiers. -/
def isFieldAllowed (index : DescribeIndex) (objectApiName fieldName : String) : Bool :=
  match mapGet index.objects objectApiName with
  | none => false
  | some obj =>
    if jsIncludes fieldName "." then
      let parts := jsSplit fieldName '.'
      let rel := parts.getD 0 ""
      let leaf := parts.getD 1 ""
      if leaf ≠ "Name" then false
      else (obj.relationships.find? (fun e => e.1 = rel)).isSome ||
           (obj.relationships.find? (fun e => e.1 = rel ++ "__r")).isSome
    else obj.readable.contains fieldName || fieldName = "Id" || fieldName = "Name"

/-! ### Reference edit distance (for reasoning about `levMatrix`) -/

/-- Textbook recursive Levenshtein distance on character lists.  The matrix
entry `levMatrix str1 str2 _ i j` equals `levRec` on the reversed `i`/`j`
prefixes of `str2`/`str1` (proved below); all algebraic properties of
`levenshteinDistance` are established through this function. -/
def levRec : List Char → List Char → Nat
  | [], b => b.length
  | a, [] => a.length
  | x :: xs, y :: ys =>
    if x = y then levRec xs ys
    else 1 + min (levRec xs ys) (min (levRec (x :: xs) ys) (levRec xs (y :: ys)))
termination_by a b => a.length + b.length

/-- One elementary edit: insert, delete or substitute one character,
anywhere in the list. -/
inductive Edit : List Char → List Char → Prop
  | ins (x : Char) (l : List Char) : Edit l (x :: l)
  | del (x : Char) (l : List Char) : Edit (x :: l) l
  | sub (x y : Char) (l : List Char) : Edit (x :: l) (y :: l)
  | cons (x : Char) {l l' : List Char} : Edit l l' → Edit (x :: l) (x :: l')

/-- Relation `Edits n a b`: `a` can be rewritten into `b` by `n` elementary edits. -/
inductive Edits : Nat → List Char → List Char → Prop
  | refl (l : List Char) : Edits 0 l l
  | step {a b c : List Char} {n : Nat} : Edit a b → Edits n b c → Edits (n + 1) a c

/-! ### Generic list lemmas -/

theorem foldl_inv {α γ : Type} (Q : γ → Prop) {f : γ → α → γ} :
    ∀ (l : List α) (init : γ), Q init →
      (∀ acc a, a ∈ l → Q acc → Q (f acc a)) → Q (l.foldl f init)
  | [], _, h, _ => h
  | a :: l, init, h, hstep =>
    foldl_inv Q l (f init a) (hstep init a (List.mem_cons_self a l) h)
      (fun acc b hb hq => hstep acc b (List.mem_cons_of_mem _ hb) hq)

theorem foldl_id {α γ : Type} {f : γ → α → γ} :
    ∀ (l : List α) (init : γ), (∀ acc a, a ∈ l → f acc a = acc) → l.foldl f init = init
  | [], _, _ => rfl
  | a :: l, init, h => by
    rw [List.foldl_cons, h init a (List.mem_cons_self a l)]
    exact foldl_id l init (fun acc b hb => h acc b (List.mem_cons_of_mem _ hb))

theorem mem_insertSorted {α : Type} {lt : α → α → Bool} {x y : α} :
    ∀ {l : List α}, x ∈ insertSorted lt y l ↔ x = y ∨ x ∈ l := by
  intro l
  induction l with
  | nil => simp [insertSorted]
  | cons a t ih =>
    by_cases h : lt a y = true
    · simp [insertSorted, h, ih]
      tauto
    · simp [insertSorted, h]

theorem mem_stableSortBy {α : Type} {lt : α → α → Bool} {x : α} :
    ∀ {l : List α}, x ∈ stableSortBy lt l ↔ x ∈ l := by
  intro l
  induction l with
  | nil => simp [stableSortBy]
  | cons a t ih => simp [stableSortBy, mem_insertSorted, ih]

theorem head?_some_mem {α : Type} {l : List α} {x : α} (h : l.head? = some x) : x ∈ l := by
  cases l with
  | nil => simp at h
  | cons a t =>
    simp at h
    simp [h]

/-! ### Stage-level lemmas of the resolver -/

/-- Every partial-stage candidate carries confidence 0.8 and type `partial`. -/
theorem partialStage_fields (kws : List String) (cat : Catalog) :
    ∀ m ∈ partialStageMatches kws cat, m.confidence = 8/10 ∧ m.matchType = "partial" := by
  refine foldl_inv
    (fun ms : List MatchCandidate => ∀ m ∈ ms, m.confidence = 8/10 ∧ m.matchType = "partial")
    kws [] (by simp) ?_
  intro acc kw _ hq m hm
  rcases List.mem_append.mp hm with h | h
  · exact hq m h
  · rcases List.mem_map.mp h with ⟨e, _, rfl⟩
    exact ⟨rfl, rfl⟩

/-- Every exact-stage candidate carries confidence 1 and type `exact`. -/
theorem exactStage_fields (kws : List String) (cat : Catalog) :
    ∀ m ∈ exactStageMatches kws cat, m.confidence = 1 ∧ m.matchType = "exact" := by
  refine foldl_inv
    (fun ms : List MatchCandidate => ∀ m ∈ ms, m.confidence = 1 ∧ m.matchType = "exact")
    kws [] (by simp) ?_
  intro acc kw _ hq m hm
  rcases List.mem_append.mp hm with h | h
  · exact hq m h
  · rcases List.mem_map.mp h with ⟨e, _, rfl⟩
    exact ⟨rfl, rfl⟩

/-- C2, corrected part: the partial stage of `resolveObjectsIntelligently`
assigns every candidate the flat confidence 0.8 (the length-ratio confidence
computed inside `findPartialMatches` is overwritten at the push site). -/
theorem partialStage_confidence_const (kws : List String) (cat : Catalog) :
    ∀ m ∈ partialStageMatches kws cat, m.confidence = 8/10 :=
  fun m hm => (partialStage_fields kws cat m hm).1

/-- C2, counterexample: with the catalog built from the single standard
object `Account` and the keyword `acc`, a partial-stage candidate has
confidence 0.8, while no catalog key yields a length ratio of 0.8 (the
matching keys give 3/7 and 3/8). -/
theorem partialStage_ratio_counterexample :
    ∃ m ∈ partialStageMatches ["acc"]
        (buildComprehensiveCatalog (.ok [⟨"Account", "Account", "Accounts", false⟩]) false),
      m.confidence = 8/10 ∧
      ∀ kv ∈ buildComprehensiveCatalog (.ok [⟨"Account", "Account", "Accounts", false⟩]) false,
        (min ("acc".length) kv.1.length : ℚ) / (max ("acc".length) kv.1.length : ℚ) ≠
          m.confidence := by
  decide

/-- Re-ranked candidates never exceed confidence 1 (shared helper). -/
theorem rank_le_one (ms : List MatchCandidate) (question : String)
    (orgProfile : OrgProfile) (prefs : List (String × UserPref)) (now : ℚ) :
    ∀ m ∈ rankByContextAndPreferences ms question orgProfile prefs now,
      m.confidence ≤ 1 := by
  intro m hm
  rw [rankByContextAndPreferences, mem_stableSortBy] at hm
  rcases List.mem_map.mp hm with ⟨m0, _, rfl⟩
  exact min_le_left _ _

/-- C3 (amended): after re-ranking, every candidate's confidence is at most 1
(only the upper clamp exists in the code). -/
theorem rank_confidence_clamped_above (ms : List MatchCandidate) (question : String)
    (orgProfile : OrgProfile) (prefs : List (String × UserPref)) (now : ℚ) :
    ∀ m ∈ rankByContextAndPreferences ms question orgProfile prefs now,
      m.confidence ≤ 1 :=
  rank_le_one ms question orgProfile prefs now

/-- C3 witness: a concrete re-ranked candidate is bounded by 1. -/
theorem rank_confidence_clamped_above_witness :
    (⟨"Account", "Account", "Accounts", false, "api", 1, "exact", "account"⟩ : MatchCandidate) ∈
      rankByContextAndPreferences
        [⟨"Account", "Account", "Accounts", false, "api", 1, "exact", "account"⟩]
        "x" {} [] 0 ∧
    (⟨"Account", "Account", "Accounts", false, "api", (1 : ℚ), "exact", "account"⟩ :
      MatchCandidate).confidence ≤ 1 :=
  ⟨by decide,
   rank_confidence_clamped_above
     [⟨"Account", "Account", "Accounts", false, "api", 1, "exact", "account"⟩]
     "x" {} [] 0 _ (by decide)⟩

/-- C3 counterexample: a candidate with initial confidence 0.8 (inside
`[0,1]`) for the forbidden object `WorkflowRule` leaves re-ranking with
confidence −1.7, outside `[0,1]`: the −2.0 forbidden and −0.5 system
penalties are not clamped below. -/
theorem rank_confidence_below_zero_counterexample :
    ((0 : ℚ) ≤ 8/10 ∧ (8 : ℚ)/10 ≤ 1) ∧
    ∃ m ∈ rankByContextAndPreferences
        [⟨"WorkflowRule", "", "", false, "api", 8/10, "partial", "rule"⟩] "x" {} [] 0,
      m.confidence < 0 := by
  constructor
  · constructor <;> norm_num
  · decide

/-- The fuzzy stage contributes nothing when some exact/partial candidate has
confidence above 0.7 (shared helper). -/
theorem stage_no_fuzzy_of_strong (kws : List String) (cat : Catalog) (thr : ℚ) (fz : Bool)
    (hex : ∃ m ∈ exactStageMatches kws cat ++ partialStageMatches kws cat,
      m.confidence > 7/10) :
    ∀ m ∈ stageMatches kws cat thr fz, m.matchType ≠ "fuzzy" := by
  intro m hm
  have hep : ∀ x ∈ exactStageMatches kws cat ++ partialStageMatches kws cat,
      x.matchType ≠ "fuzzy" := by
    intro x hx
    rcases List.mem_append.mp hx with h | h
    · rw [(exactStage_fields kws cat x h).2]
      decide
    · rw [(partialStage_fields kws cat x h).2]
      decide
  by_cases hb : ((exactStageMatches kws cat ++ partialStageMatches kws cat).filter
      (fun m => decide (m.confidence > 7/10))).length = 0
  · exfalso
    obtain ⟨m0, hm0, hc⟩ := hex
    have hmem : m0 ∈ (exactStageMatches kws cat ++ partialStageMatches kws cat).filter
        (fun m => decide (m.confidence > 7/10)) :=
      List.mem_filter.mpr ⟨hm0, by simpa using hc⟩
    rw [List.length_eq_zero] at hb
    rw [hb] at hmem
    exact (List.not_mem_nil m0) hmem
  · rw [stageMatches] at hm
    simp only [hb] at hm
    simp at hm
    exact hep m (List.mem_append.mpr hm)

/-- C5: the fuzzy stage runs only when no exact/partial candidate has
confidence strictly above 0.7; when one does, no fuzzy-typed candidate is
in the stage output. -/
theorem fuzzy_stage_gated (kws : List String) (cat : Catalog) (thr : ℚ) (fz : Bool)
    (hex : ∃ m ∈ exactStageMatches kws cat ++ partialStageMatches kws cat,
      m.confidence > 7/10) :
    ∀ m ∈ stageMatches kws cat thr fz, m.matchType ≠ "fuzzy" :=
  stage_no_fuzzy_of_strong kws cat thr fz hex

/-- C9: partial candidates always carry confidence 0.8, so a nonempty partial
stage closes the 0.7 gate and the fuzzy stage contributes nothing. -/
theorem partial_nonempty_blocks_fuzzy (kws : List String) (cat : Catalog)
    (thr : ℚ) (fz : Bool) :
    (∀ m ∈ partialStageMatches kws cat, m.confidence = 8/10) ∧
    (partialStageMatches kws cat ≠ [] →
      ∀ m ∈ stageMatches kws cat thr fz, m.matchType ≠ "fuzzy") := by
  constructor
  · exact fun m hm => (partialStage_fields kws cat m hm).1
  · intro hne
    obtain ⟨m0, hm0⟩ := List.exists_mem_of_ne_nil _ hne
    apply stage_no_fuzzy_of_strong
    refine ⟨m0, List.mem_append.mpr (Or.inr hm0), ?_⟩
    rw [(partialStage_fields kws cat m0 hm0).1]
    norm_num

/-- C2 witness: the concrete partial candidate produced for keyword `acc`
over the `Account` catalog carries confidence 0.8. -/
theorem partialStage_confidence_const_witness :
    (⟨"Account", "Account", "Accounts", false, "api", 8/10, "partial", "acc"⟩ :
        MatchCandidate) ∈
      partialStageMatches ["acc"]
        (buildComprehensiveCatalog (.ok [⟨"Account", "Account", "Accounts", false⟩]) false) ∧
    (⟨"Account", "Account", "Accounts", false, "api", (8 : ℚ)/10, "partial", "acc"⟩ :
        MatchCandidate).confidence = 8/10 :=
  ⟨by decide,
   partialStage_confidence_const ["acc"]
     (buildComprehensiveCatalog (.ok [⟨"Account", "Account", "Accounts", false⟩]) false)
     _ (by decide)⟩

/-- C5 witness: with an exact match (confidence 1 > 0.7) present, the
candidate surviving in the stage output is not fuzzy. -/
theorem fuzzy_stage_gated_witness :
    (⟨"Account", "Account", "Accounts", false, "api", 1, "exact", "account"⟩ :
        MatchCandidate) ∈
      stageMatches ["account"]
        (buildComprehensiveCatalog (.ok [⟨"Account", "Account", "Accounts", false⟩]) false)
        (6/10) true ∧
    (⟨"Account", "Account", "Accounts", false, "api", (1 : ℚ), "exact", "account"⟩ :
        MatchCandidate).matchType ≠ "fuzzy" :=
  ⟨by decide,
   fuzzy_stage_gated ["account"]
     (buildComprehensiveCatalog (.ok [⟨"Account", "Account", "Accounts", false⟩]) false)
     (6/10) true (by decide) _ (by decide)⟩

/-- C9 witness: for keyword `acc` the partial stage is nonempty, its concrete
candidate has confidence 0.8, and the stage output contains no fuzzy
candidate. -/
theorem partial_nonempty_blocks_fuzzy_witness :
    (⟨"Account", "Account", "Accounts", false, "api", (8 : ℚ)/10, "partial", "acc"⟩ :
        MatchCandidate).confidence = 8/10 ∧
    (⟨"Account", "Account", "Accounts", false, "api", (8 : ℚ)/10, "partial", "acc"⟩ :
        MatchCandidate).matchType ≠ "fuzzy" :=
  ⟨(partial_nonempty_blocks_fuzzy ["acc"]
      (buildComprehensiveCatalog (.ok [⟨"Account", "Account", "Accounts", false⟩]) false)
      (6/10) true).1 _ (by decide),
   (partial_nonempty_blocks_fuzzy ["acc"]
      (buildComprehensiveCatalog (.ok [⟨"Account", "Account", "Accounts", false⟩]) false)
      (6/10) true).2 (by decide) _ (by decide)⟩

/-! ### Degradation on an empty catalog (C8) -/

theorem findExactMatches_nil (kw : String) : findExactMatches kw [] = [] := rfl

theorem exactStage_nil (kws : List String) : exactStageMatches kws [] = [] :=
  foldl_id kws [] (fun acc kw _ => by simp [findExactMatches, mapGet])

theorem partialStage_nil (kws : List String) : partialStageMatches kws [] = [] :=
  foldl_id kws [] (fun acc kw _ => by simp [findPartialMatches])

theorem fuzzyStage_nil (kws : List String) (thr : ℚ) : fuzzyStageMatches kws [] thr = [] :=
  foldl_id kws [] (fun acc kw _ => by simp [findFuzzyMatches, stableSortBy])

theorem stageMatches_nil (kws : List String) (thr : ℚ) (fz : Bool) :
    stageMatches kws [] thr fz = [] := by
  rw [stageMatches]
  cases fz <;>
    simp [exactStage_nil, partialStage_nil, fuzzyStage_nil]

/-- C8: when the remote lister throws while the catalog is being built, the
resolution flow absorbs the failure: the result reports `success: false`
with no suggestions, confidence 0, and the "couldn't find" clarification
message quoting the extracted keywords. -/
theorem resolve_absorbs_lister_failure (err question : String) (orgProfile : OrgProfile)
    (opts : ResolveOptions) (now : ℚ) :
    (resolveObjectsIntelligently (.error err) question orgProfile opts now).success = false ∧
    (resolveObjectsIntelligently (.error err) question orgProfile opts now).suggestions = [] ∧
    (resolveObjectsIntelligently (.error err) question orgProfile opts now).primaryMatch = none ∧
    (resolveObjectsIntelligently (.error err) question orgProfile opts now).confidence = 0 ∧
    (resolveObjectsIntelligently (.error err) question orgProfile opts now).clarificationMessage =
      some ("I couldn't find any Salesforce objects matching \"" ++
        String.intercalate ", " (extractObjectKeywords question orgProfile) ++
        "\". Try using standard names like \"Account\", \"Contact\", or \"Opportunity\", or provide the exact API name.") := by
  have hcat : buildComprehensiveCatalog (.error err) opts.includeSystemObjects = [] := rfl
  simp [resolveObjectsIntelligently, hcat, stageMatches_nil,
    rankByContextAndPreferences, stableSortBy, deduplicateMatches,
    buildClarificationMessage]

/-! ### Dotted field names (C10) -/

theorem splitCharAux_sep_split (sep : Char) :
    ∀ (l1 l2 cur : List Char), (∀ c ∈ l1, c ≠ sep) →
      splitCharAux sep (l1 ++ sep :: l2) cur =
        ⟨cur.reverse ++ l1⟩ :: splitCharAux sep l2 []
  | [], l2, cur, _ => by simp [splitCharAux]
  | c :: l1, l2, cur, h => by
    have hc : c ≠ sep := h c (List.mem_cons_self c l1)
    have step : splitCharAux sep ((c :: l1) ++ sep :: l2) cur =
        if c = sep then ⟨cur.reverse⟩ :: splitCharAux sep (l1 ++ sep :: l2) []
        else splitCharAux sep (l1 ++ sep :: l2) (c :: cur) := rfl
    rw [step, if_neg hc, splitCharAux_sep_split sep l1 l2 (c :: cur)
      (fun x hx => h x (List.mem_cons_of_mem _ hx))]
    simp

theorem mem_listHasInfix_single {c : Char} :
    ∀ {l : List Char}, c ∈ l → listHasInfix [c] l = true := by
  intro l
  induction l with
  | nil => intro h; cases h
  | cons b bs ih =>
    intro h
    rcases List.mem_cons.mp h with rfl | h
    · simp [listHasInfix, listStartsWith]
    · simp [listHasInfix, ih h]

/-- C10: for an object present in the index, `isFieldAllowed` inspects only
the first two dot-separated segments of a dotted field name — it returns
`true` iff the second segment is exactly `Name` and the first segment, or
the first segment with `__r` appended, is a key of the parent-relationship
map; in particular every trailing segment after the second is ignored, so
`Rel.Name.<anything>` is allowed exactly when `Rel` (or `Rel__r`) is a
registered relationship. -/
theorem isFieldAllowed_dotted (idx : DescribeIndex) (objName : String)
    (obj : IndexedObject) (hobj : mapGet idx.objects objName = some obj) :
    (∀ fieldName : String, jsIncludes fieldName "." = true →
      (isFieldAllowed idx objName fieldName = true ↔
        ((jsSplit fieldName '.').getD 1 "" = "Name" ∧
          ((∃ kv ∈ obj.relationships, kv.1 = (jsSplit fieldName '.').getD 0 "") ∨
           (∃ kv ∈ obj.relationships,
             kv.1 = (jsSplit fieldName '.').getD 0 "" ++ "__r"))))) ∧
    (∀ rel extra : String, (∀ c ∈ rel.data, c ≠ '.') →
      (isFieldAllowed idx objName (rel ++ ".Name." ++ extra) = true ↔
        ((∃ kv ∈ obj.relationships, kv.1 = rel) ∨
         (∃ kv ∈ obj.relationships, kv.1 = rel ++ "__r")))) := by
  have main : ∀ fieldName : String, jsIncludes fieldName "." = true →
      (isFieldAllowed idx objName fieldName = true ↔
        ((jsSplit fieldName '.').getD 1 "" = "Name" ∧
          ((∃ kv ∈ obj.relationships, kv.1 = (jsSplit fieldName '.').getD 0 "") ∨
           (∃ kv ∈ obj.relationships,
             kv.1 = (jsSplit fieldName '.').getD 0 "" ++ "__r")))) := by
    intro fieldName hdot
    by_cases hleaf : (jsSplit fieldName '.').getD 1 "" = "Name"
    · simp [isFieldAllowed, hobj, hdot, hleaf, List.find?_isSome]
    · simp [isFieldAllowed, hobj, hdot, hleaf]
  refine ⟨main, ?_⟩
  intro rel extra hrel
  have hdata : (rel ++ ".Name." ++ extra).data =
      rel.data ++ '.' :: ('N' :: 'a' :: 'm' :: 'e' :: '.' :: extra.data) := by
    simp [String.data_append]
  have hsplit : jsSplit (rel ++ ".Name." ++ extra) '.' =
      rel :: "Name" :: splitCharAux '.' extra.data [] := by
    rw [jsSplit, hdata, splitCharAux_sep_split '.' rel.data _ [] hrel]
    have : ('N' :: 'a' :: 'm' :: 'e' :: '.' :: extra.data) =
        ('N' :: 'a' :: 'm' :: 'e' :: []) ++ '.' :: extra.data := rfl
    rw [this, splitCharAux_sep_split '.' _ _ [] (by decide)]
    rfl
  have hdot : jsIncludes (rel ++ ".Name." ++ extra) "." = true := by
    rw [jsIncludes, hdata]
    exact mem_listHasInfix_single (by simp)
  rw [main _ hdot, hsplit]
  simp

/-- C10 witness: in a concrete index registering relationship `Rel`, the
three-segment field name `Rel.Name.Extra` is allowed. -/
theorem isFieldAllowed_dotted_witness :
    isFieldAllowed ⟨[("Obj", ⟨none, [], [("Rel", "Target")], []⟩)]⟩ "Obj" "Rel.Name.Extra" =
      true :=
  ((isFieldAllowed_dotted ⟨[("Obj", ⟨none, [], [("Rel", "Target")], []⟩)]⟩ "Obj"
      ⟨none, [], [("Rel", "Target")], []⟩ (by decide)).2 "Rel" "Extra" (by decide)).mpr
    (Or.inl ⟨("Rel", "Target"), by decide, rfl⟩)

/-! ### Forbidden objects never surface (C1) -/

theorem catalogAdd_inv (P : CatEntry → Prop) (cat : Catalog) (key : String)
    (entry : CatEntry) (hcat : ∀ kv ∈ cat, ∀ e ∈ kv.2, P e) (he : P entry) :
    ∀ kv ∈ catalogAdd cat key entry, ∀ e ∈ kv.2, P e := by
  intro kv hkv e he2
  rw [catalogAdd] at hkv
  by_cases h : (cat.find? (fun e => e.1 = key)).isSome
  · rw [if_pos h] at hkv
    rcases List.mem_map.mp hkv with ⟨kv0, hkv0, rfl⟩
    by_cases hk : kv0.1 = key
    · simp only [hk, if_true] at he2
      rcases List.mem_append.mp he2 with h2 | h2
      · exact hcat kv0 hkv0 e h2
      · rcases List.mem_singleton.mp h2 with rfl
        exact he
    · simp only [hk, if_false] at he2
      exact hcat kv0 hkv0 e he2
  · rw [if_neg h] at hkv
    rcases List.mem_append.mp hkv with h2 | h2
    · exact hcat kv h2 e he2
    · rcases List.mem_singleton.mp h2 with rfl
      rcases List.mem_singleton.mp he2 with rfl
      exact he

/-- Every descriptor stored in the catalog survived the forbidden check. -/
theorem buildCatalog_no_forbidden (r : Except String (List SObjectInfo)) (inc : Bool) :
    ∀ kv ∈ buildComprehensiveCatalog r inc, ∀ e ∈ kv.2,
      isProblematicSystemObject e.apiName = false := by
  cases r with
  | error e => intro kv hkv; cases hkv
  | ok sobjects =>
    refine foldl_inv
      (fun cat : Catalog => ∀ kv ∈ cat, ∀ e ∈ kv.2,
        isProblematicSystemObject e.apiName = false)
      sobjects [] (by simp) ?_
    intro acc obj _ hq
    by_cases hp : isProblematicSystemObject obj.name = true
    · simpa [hp] using hq
    · have hp' : isProblematicSystemObject obj.name = false :=
        Bool.not_eq_true _ ▸ (by simpa using hp)
      by_cases hs : (!inc && isSystemObject obj.name) = true
      · simpa [hp', hs] using hq
      · simp only [hp', hs, Bool.false_eq_true, if_false]
        refine foldl_inv
          (fun cat : Catalog => ∀ kv ∈ cat, ∀ e ∈ kv.2,
            isProblematicSystemObject e.apiName = false)
          _ acc hq ?_
        intro cat entry _ hcat
        exact catalogAdd_inv _ cat entry.1 _ hcat hp'

/-- A candidate name drawn from the catalog. -/
def candFromCatalog (cat : Catalog) (name : String) : Prop :=
  ∃ kv ∈ cat, ∃ e ∈ kv.2, name = e.apiName

theorem findExactMatches_from (kw : String) (cat : Catalog) :
    ∀ e ∈ findExactMatches kw cat, ∃ kv ∈ cat, e ∈ kv.2 := by
  intro e he
  rw [findExactMatches] at he
  cases h : mapGet cat kw with
  | none => rw [h] at he; cases he
  | some es =>
    rw [h] at he
    rw [mapGet] at h
    rcases Option.map_eq_some'.mp h with ⟨kv, hfind, rfl⟩
    exact ⟨kv, List.mem_of_find?_eq_some hfind, he⟩

theorem findPartialMatches_from (kw : String) (cat : Catalog) :
    ∀ p ∈ findPartialMatches kw cat, ∃ kv ∈ cat, p.1 ∈ kv.2 := by
  refine foldl_inv
    (fun acc : List (CatEntry × ℚ) => ∀ p ∈ acc, ∃ kv ∈ cat, p.1 ∈ kv.2)
    cat [] (by simp) ?_
  intro acc kv hkv hq p hp
  by_cases hc : (jsIncludes kv.1 kw || jsIncludes kw kv.1) = true
  · simp only [hc, if_true] at hp
    rcases List.mem_append.mp hp with h | h
    · exact hq p h
    · rcases List.mem_map.mp h with ⟨obj, hobj, rfl⟩
      exact ⟨kv, hkv, hobj⟩
  · simp only [hc, Bool.false_eq_true, if_false] at hp
    exact hq p hp

theorem findFuzzyMatches_from (kw : String) (cat : Catalog) (thr : ℚ) :
    ∀ p ∈ findFuzzyMatches kw cat thr, ∃ kv ∈ cat, p.1 ∈ kv.2 := by
  intro p hp
  rw [findFuzzyMatches, mem_stableSortBy] at hp
  refine foldl_inv
    (fun acc : List (CatEntry × ℚ) => ∀ p ∈ acc, ∃ kv ∈ cat, p.1 ∈ kv.2)
    cat [] (by simp) ?_ p hp
  intro acc kv hkv hq q hque
  by_cases hc : calculateSimilarity kw kv.1 ≥ thr
  · simp only [hc, if_true] at hque
    rcases List.mem_append.mp hque with h | h
    · exact hq q h
    · rcases List.mem_map.mp h with ⟨obj, hobj, rfl⟩
      exact ⟨kv, hkv, hobj⟩
  · simp only [hc, if_false] at hque
    exact hq q hque

theorem exactStage_from (kws : List String) (cat : Catalog) :
    ∀ m ∈ exactStageMatches kws cat, candFromCatalog cat m.apiName := by
  refine foldl_inv
    (fun ms : List MatchCandidate => ∀ m ∈ ms, candFromCatalog cat m.apiName)
    kws [] (by simp) ?_
  intro acc kw _ hq m hm
  rcases List.mem_append.mp hm with h | h
  · exact hq m h
  · rcases List.mem_map.mp h with ⟨e, he, rfl⟩
    rcases findExactMatches_from kw cat e he with ⟨kv, hkv, he2⟩
    exact ⟨kv, hkv, e, he2, rfl⟩

theorem partialStage_from (kws : List String) (cat : Catalog) :
    ∀ m ∈ partialStageMatches kws cat, candFromCatalog cat m.apiName := by
  refine foldl_inv
    (fun ms : List MatchCandidate => ∀ m ∈ ms, candFromCatalog cat m.apiName)
    kws [] (by simp) ?_
  intro acc kw _ hq m hm
  rcases List.mem_append.mp hm with h | h
  · exact hq m h
  · rcases List.mem_map.mp h with ⟨p, hp, rfl⟩
    rcases findPartialMatches_from kw cat p hp with ⟨kv, hkv, he2⟩
    exact ⟨kv, hkv, p.1, he2, rfl⟩

theorem fuzzyStage_from (kws : List String) (cat : Catalog) (thr : ℚ) :
    ∀ m ∈ fuzzyStageMatches kws cat thr, candFromCatalog cat m.apiName := by
  refine foldl_inv
    (fun ms : List MatchCandidate => ∀ m ∈ ms, candFromCatalog cat m.apiName)
    kws [] (by simp) ?_
  intro acc kw _ hq m hm
  rcases List.mem_append.mp hm with h | h
  · exact hq m h
  · rcases List.mem_map.mp h with ⟨p, hp, rfl⟩
    rcases findFuzzyMatches_from kw cat thr p hp with ⟨kv, hkv, he2⟩
    exact ⟨kv, hkv, p.1, he2, rfl⟩

theorem stageMatches_from (kws : List String) (cat : Catalog) (thr : ℚ) (fz : Bool) :
    ∀ m ∈ stageMatches kws cat thr fz, candFromCatalog cat m.apiName := by
  intro m hm
  rw [stageMatches] at hm
  have hep : ∀ m ∈ exactStageMatches kws cat ++ partialStageMatches kws cat,
      candFromCatalog cat m.apiName := by
    intro x hx
    rcases List.mem_append.mp hx with h | h
    · exact exactStage_from kws cat x h
    · exact partialStage_from kws cat x h
  by_cases hb : (fz && ((exactStageMatches kws cat ++ partialStageMatches kws cat).filter
      (fun m => decide (m.confidence > 7/10))).length = 0) = true
  · simp only [hb, if_true] at hm
    rcases List.mem_append.mp hm with h | h
    · exact hep m h
    · exact fuzzyStage_from kws cat thr m h
  · simp only [hb, Bool.false_eq_true, if_false] at hm
    exact hep m hm

theorem rank_from (ms : List MatchCandidate) (question : String) (orgProfile : OrgProfile)
    (prefs : List (String × UserPref)) (now : ℚ) :
    ∀ m ∈ rankByContextAndPreferences ms question orgProfile prefs now,
      ∃ m0 ∈ ms, m.apiName = m0.apiName := by
  intro m hm
  rw [rankByContextAndPreferences, mem_stableSortBy] at hm
  rcases List.mem_map.mp hm with ⟨m0, hm0, rfl⟩
  exact ⟨m0, hm0, rfl⟩

theorem dedup_subset (ms : List MatchCandidate) :
    ∀ m ∈ deduplicateMatches ms, m ∈ ms := by
  intro m hm
  rw [deduplicateMatches] at hm
  refine (foldl_inv
    (fun acc : List String × List MatchCandidate => ∀ m ∈ acc.2, m ∈ ms)
    ms ([], []) (by simp) ?_) m hm
  intro acc a ha hq x hx
  by_cases hc : acc.1.contains a.apiName = true
  · simp only [hc, if_true] at hx
    exact hq x hx
  · simp only [hc, Bool.false_eq_true, if_false] at hx
    rcases List.mem_append.mp hx with h | h
    · exact hq x h
    · rcases List.mem_singleton.mp h with rfl
      exact ha

/-- Resolver half of C1 (shared helper). -/
theorem resolve_no_forbidden (sfResult : Except String (List SObjectInfo))
    (question : String) (orgProfile : OrgProfile) (opts : ResolveOptions) (now : ℚ) :
    ∀ m ∈ (resolveObjectsIntelligently sfResult question orgProfile opts now).suggestions,
      isProblematicSystemObject m.apiName = false := by
  intro m hm
  have hm2 : m ∈ deduplicateMatches (rankByContextAndPreferences
      (stageMatches (extractObjectKeywords question orgProfile)
        (buildComprehensiveCatalog sfResult opts.includeSystemObjects)
        opts.threshold opts.enableFuzzySearch)
      question orgProfile opts.userPreferences now) :=
    List.take_subset _ _ hm
  have hm3 := dedup_subset _ m hm2
  rcases rank_from _ question orgProfile opts.userPreferences now m hm3 with ⟨m0, hm0, heq⟩
  rcases stageMatches_from _ _ opts.threshold opts.enableFuzzySearch m0 hm0 with
    ⟨kv, hkv, e, he, heq2⟩
  rw [heq, heq2]
  exact buildCatalog_no_forbidden sfResult opts.includeSystemObjects kv hkv e he

/-- The safety predicate carried through the planner's DFS: the entry's
object and every hop target along its path are non-forbidden. -/
def planEntryOk (e : PlanEntry) : Prop :=
  isProblematicSystemObject e.objectApiName = false ∧
  ∀ h ∈ e.path, isProblematicSystemObject h.toApi = false

theorem dfs_results_ok (idx : DescribeIndex) (kws : List String) :
    ∀ (gas : Nat) (name : String) (path : List Hop) (depth : Nat) (st : PlanState),
      (∀ e ∈ st.results, planEntryOk e) →
      (isProblematicSystemObject name = false →
        ∀ h ∈ path, isProblematicSystemObject h.toApi = false) →
      ∀ e ∈ (dfs idx kws gas name path depth st).results, planEntryOk e := by
  intro gas
  induction gas with
  | zero => intro name path depth st hst _; exact hst
  | succ gas ih =>
    intro name path depth st hst hpath
    rw [dfs]
    by_cases h1 : depth > planMaxDepth
    · simpa [h1] using hst
    by_cases h2 : name ∈ st.visited
    · simpa [h1, h2] using hst
    by_cases h3 : isProblematicSystemObject name = true
    · simpa [h1, h2, h3] using hst
    have hname : isProblematicSystemObject name = false := by
      simpa using h3
    simp only [h1, if_false, h2, h3, decide_eq_true_eq, List.elem_eq_mem, decide_False,
      Bool.false_eq_true]
    cases hobj : mapGet idx.objects name with
    | none => simpa [hobj] using hst
    | some obj =>
      simp only [hobj]
      refine foldl_inv
        (fun s : PlanState => ∀ e ∈ s.results, planEntryOk e)
        obj.childRelationships _ ?_ ?_
      · refine foldl_inv
          (fun s : PlanState => ∀ e ∈ s.results, planEntryOk e)
          obj.relationships _ ?_ ?_
        · intro e he
          rcases List.mem_append.mp he with h | h
          · exact hst e h
          · rcases List.mem_singleton.mp h with rfl
            exact ⟨hname, hpath hname⟩
        · intro s rel _ hq
          refine ih rel.2 (path ++ [⟨"parent", rel.1, rel.2⟩]) (depth + 1) s hq ?_
          intro hrel h hh
          rcases List.mem_append.mp hh with h4 | h4
          · exact hpath hname h h4
          · rcases List.mem_singleton.mp h4 with rfl
            exact hrel
      · intro s rel _ hq
        refine ih rel.2 (path ++ [⟨"child", rel.1, rel.2⟩]) (depth + 1) s hq ?_
        intro hrel h hh
        rcases List.mem_append.mp hh with h4 | h4
        · exact hpath hname h h4
        · rcases List.mem_singleton.mp h4 with rfl
          exact hrel

/-- Every entry collected by the planner is safe (shared helper). -/
theorem planResults_ok (idx : DescribeIndex) (start : String) (kws : List String) :
    ∀ e ∈ planResults idx start kws, planEntryOk e := by
  refine dfs_results_ok idx kws (planMaxDepth + 2) start [] 0 ⟨[], []⟩ (by simp) ?_
  intro _ h hh
  cases hh

/-- C1: a forbidden object name (one accepted by `isProblematicSystemObject`)
never appears among `resolveObjectsIntelligently` suggestions — for any
lister outcome, question, org profile and options, `includeSystemObjects`
included — and never appears as the result object of `planRelationshipPath`
nor as the target of any hop of the returned path. -/
theorem forbidden_never_surfaces :
    (∀ (sfResult : Except String (List SObjectInfo)) (question : String)
        (orgProfile : OrgProfile) (opts : ResolveOptions) (now : ℚ),
      ∀ m ∈ (resolveObjectsIntelligently sfResult question orgProfile opts now).suggestions,
        isProblematicSystemObject m.apiName = false) ∧
    (∀ (idx : DescribeIndex) (start : String) (kws : List String) (r : PlanEntry),
      planRelationshipPath idx start kws = some r →
        isProblematicSystemObject r.objectApiName = false ∧
        ∀ h ∈ r.path, isProblematicSystemObject h.toApi = false) := by
  constructor
  · exact resolve_no_forbidden
  · intro idx start kws r hr
    rw [planRelationshipPath] at hr
    have hmem : r ∈ planResults idx start kws :=
      mem_stableSortBy.mp (head?_some_mem hr)
    exact planResults_ok idx start kws r hmem

/-- C1 witness: a concrete run of both halves.  The lister exposes the
forbidden `FlowOrchestrationWorkItem` next to `Account` (with system objects
included), and the planner runs over an `Account`–`Contact` index; the
surviving suggestion and the planned target are the non-forbidden ones. -/
theorem forbidden_never_surfaces_witness :
    ((⟨"Account", "Account", "Accounts", false, "labelPlural", 1, "exact", "accounts"⟩ :
        MatchCandidate) ∈
      (resolveObjectsIntelligently
        (.ok [⟨"Account", "Account", "Accounts", false⟩,
              ⟨"FlowOrchestrationWorkItem", "Flow Orchestration Work Item", "", false⟩])
        "show me accounts" {} { includeSystemObjects := true } 0).suggestions ∧
      isProblematicSystemObject "Account" = false) ∧
    (planRelationshipPath
        ⟨[("Account", ⟨some ⟨"Account", "Accounts"⟩, [], [], [("Contacts", "Contact")]⟩),
          ("Contact", ⟨some ⟨"Contact", "Contacts"⟩, [], [], []⟩)]⟩
        "Account" ["contact"] =
      some ⟨"Contact", [⟨"child", "Contacts", "Contact"⟩], 1, 1⟩ ∧
      isProblematicSystemObject "Contact" = false ∧
      isProblematicSystemObject
        (Hop.mk "child" "Contacts" "Contact").toApi = false) := by
  constructor
  · constructor
    · decide
    · exact forbidden_never_surfaces.1
        (.ok [⟨"Account", "Account", "Accounts", false⟩,
              ⟨"FlowOrchestrationWorkItem", "Flow Orchestration Work Item", "", false⟩])
        "show me accounts" {} { includeSystemObjects := true } 0
        ⟨"Account", "Account", "Accounts", false, "labelPlural", 1, "exact", "accounts"⟩
        (by decide)
  · refine ⟨by decide, ?_, ?_⟩
    · exact (forbidden_never_surfaces.2
        ⟨[("Account", ⟨some ⟨"Account", "Accounts"⟩, [], [], [("Contacts", "Contact")]⟩),
          ("Contact", ⟨some ⟨"Contact", "Contacts"⟩, [], [], []⟩)]⟩
        "Account" ["contact"] ⟨"Contact", [⟨"child", "Contacts", "Contact"⟩], 1, 1⟩
        (by decide)).1
    · exact (forbidden_never_surfaces.2
        ⟨[("Account", ⟨some ⟨"Account", "Accounts"⟩, [], [], [("Contacts", "Contact")]⟩),
          ("Contact", ⟨some ⟨"Contact", "Contacts"⟩, [], [], []⟩)]⟩
        "Account" ["contact"] ⟨"Contact", [⟨"child", "Contacts", "Contact"⟩], 1, 1⟩
        (by decide)).2 _ (by decide)

/-! ### Planner scoring (C4) -/

theorem foldl_count {p : String → Bool} {c : ℚ} :
    ∀ (l : List String) (s : ℚ),
      l.foldl (fun s kw => if p kw = true then s + c else s) s =
        s + c * ((l.filter p).length : ℚ)
  | [], s => by simp
  | kw :: l, s => by
    by_cases h : p kw = true
    · rw [List.foldl_cons, if_pos h, foldl_count l (s + c)]
      simp [h]
      ring
    · rw [List.foldl_cons, if_neg h, foldl_count l s]
      simp [h]

theorem jsToLower_ne_empty {s : String} (h : s ≠ "") : jsToLower s ≠ "" := by
  intro hh
  apply h
  have hdata : s.data.map charLower = [] := congrArg String.data hh
  rw [List.map_eq_nil_iff] at hdata
  cases s
  simp_all

/-- The per-object score equals the claim's counting formula whenever the
keywords are nonempty strings. -/
theorem keywordScore_counts (kws : List String) (hay neighborText : String)
    (hkw : ∀ kw ∈ kws, kw ≠ "") :
    keywordScore kws hay neighborText =
      ((kws.filter (fun kw => jsIncludes hay (jsToLower kw))).length : ℚ) +
        (8/10) * ((kws.filter (fun kw => jsIncludes neighborText (jsToLower kw))).length : ℚ) := by
  rw [keywordScore]
  have h1 : ∀ kw ∈ kws,
      (decide (jsToLower kw ≠ "") && jsIncludes hay (jsToLower kw)) =
        jsIncludes hay (jsToLower kw) := by
    intro kw hkwm
    rw [decide_eq_true (jsToLower_ne_empty (hkw kw hkwm))]
    exact Bool.true_and _
  have h2 : ∀ kw ∈ kws,
      (decide (jsToLower kw ≠ "") && jsIncludes neighborText (jsToLower kw)) =
        jsIncludes neighborText (jsToLower kw) := by
    intro kw hkwm
    rw [decide_eq_true (jsToLower_ne_empty (hkw kw hkwm))]
    exact Bool.true_and _
  rw [foldl_count kws 0, foldl_count kws 0,
    List.filter_congr h1, List.filter_congr h2]
  ring

/-- The score recomputation predicate carried through the DFS. -/
def planEntryScoreOk (idx : DescribeIndex) (kws : List String) (e : PlanEntry) : Prop :=
  ∃ obj, mapGet idx.objects e.objectApiName = some obj ∧
    e.score = keywordScore kws (hayOf e.objectApiName obj) (neighborTextOf obj)

theorem dfs_scores (idx : DescribeIndex) (kws : List String) :
    ∀ (gas : Nat) (name : String) (path : List Hop) (depth : Nat) (st : PlanState),
      (∀ e ∈ st.results, planEntryScoreOk idx kws e) →
      ∀ e ∈ (dfs idx kws gas name path depth st).results, planEntryScoreOk idx kws e := by
  intro gas
  induction gas with
  | zero => intro name path depth st hst; exact hst
  | succ gas ih =>
    intro name path depth st hst
    rw [dfs]
    by_cases h1 : depth > planMaxDepth
    · simpa [h1] using hst
    by_cases h2 : name ∈ st.visited
    · simpa [h1, h2] using hst
    by_cases h3 : isProblematicSystemObject name = true
    · simpa [h1, h2, h3] using hst
    simp only [h1, if_false, h2, h3, decide_eq_true_eq, List.elem_eq_mem, decide_False,
      Bool.false_eq_true]
    cases hobj : mapGet idx.objects name with
    | none => simpa [hobj] using hst
    | some obj =>
      simp only [hobj]
      refine foldl_inv
        (fun s : PlanState => ∀ e ∈ s.results, planEntryScoreOk idx kws e)
        obj.childRelationships _ ?_ ?_
      · refine foldl_inv
          (fun s : PlanState => ∀ e ∈ s.results, planEntryScoreOk idx kws e)
          obj.relationships _ ?_ ?_
        · intro e he
          rcases List.mem_append.mp he with h | h
          · exact hst e h
          · rcases List.mem_singleton.mp h with rfl
            exact ⟨obj, hobj, rfl⟩
        · intro s rel _ hq
          exact ih rel.2 (path ++ [⟨"parent", rel.1, rel.2⟩]) (depth + 1) s hq
      · intro s rel _ hq
        exact ih rel.2 (path ++ [⟨"child", rel.1, rel.2⟩]) (depth + 1) s hq

/-- C4: every entry recorded by `planRelationshipPath`'s DFS is scored as
+1 per keyword contained in the lower-cased concatenation of the object's
API name, label and plural label, plus +0.8 per keyword contained in the
text of its immediate neighbors' object names. -/
theorem plan_score_formula (idx : DescribeIndex) (start : String) (kws : List String)
    (hkw : ∀ kw ∈ kws, kw ≠ "") :
    ∀ e ∈ planResults idx start kws,
      ∃ obj, mapGet idx.objects e.objectApiName = some obj ∧
        e.score =
          ((kws.filter (fun kw =>
              jsIncludes (hayOf e.objectApiName obj) (jsToLower kw))).length : ℚ) +
          (8/10) * ((kws.filter (fun kw =>
              jsIncludes (neighborTextOf obj) (jsToLower kw))).length : ℚ) := by
  intro e he
  rcases dfs_scores idx kws (planMaxDepth + 2) start [] 0 ⟨[], []⟩ (by simp) e he with
    ⟨obj, hobj, hscore⟩
  exact ⟨obj, hobj, by rw [hscore, keywordScore_counts kws _ _ hkw]⟩

/-- C4 witness: the concrete `Contact` entry of the `Account`–`Contact` index
is scored by the counting formula. -/
theorem plan_score_formula_witness :
    (⟨"Contact", [⟨"child", "Contacts", "Contact"⟩], 1, 1⟩ : PlanEntry) ∈
      planResults
        ⟨[("Account", ⟨some ⟨"Account", "Accounts"⟩, [], [], [("Contacts", "Contact")]⟩),
          ("Contact", ⟨some ⟨"Contact", "Contacts"⟩, [], [], []⟩)]⟩
        "Account" ["contact"] ∧
    ∃ obj, mapGet
        (⟨[("Account", ⟨some ⟨"Account", "Accounts"⟩, [], [], [("Contacts", "Contact")]⟩),
           ("Contact", ⟨some ⟨"Contact", "Contacts"⟩, [], [], []⟩)]⟩ : DescribeIndex).objects
        (⟨"Contact", [⟨"child", "Contacts", "Contact"⟩], 1, 1⟩ : PlanEntry).objectApiName =
        some obj ∧
      (⟨"Contact", [⟨"child", "Contacts", "Contact"⟩], 1, 1⟩ : PlanEntry).score =
        ((["contact"].filter (fun kw =>
            jsIncludes (hayOf "Contact" obj) (jsToLower kw))).length : ℚ) +
        (8/10) * ((["contact"].filter (fun kw =>
            jsIncludes (neighborTextOf obj) (jsToLower kw))).length : ℚ) :=
  ⟨by decide,
   plan_score_formula
     ⟨[("Account", ⟨some ⟨"Account", "Accounts"⟩, [], [], [("Contacts", "Contact")]⟩),
       ("Contact", ⟨some ⟨"Contact", "Contacts"⟩, [], [], []⟩)]⟩
     "Account" ["contact"] (by decide) _ (by decide)⟩

/-! ### Properties of the similarity kernel (C6, C7) -/

theorem levRec_nil_left (b : List Char) : levRec [] b = b.length := by
  simp [levRec]

theorem levRec_nil_right (a : List Char) : levRec a [] = a.length := by
  cases a <;> simp [levRec]

theorem levRec_cons (x y : Char) (xs ys : List Char) :
    levRec (x :: xs) (y :: ys) =
      if x = y then levRec xs ys
      else 1 + min (levRec xs ys) (min (levRec (x :: xs) ys) (levRec xs (y :: ys))) := by
  rw [levRec]

theorem levRec_self : ∀ l : List Char, levRec l l = 0
  | [] => levRec_nil_left []
  | x :: xs => by
    rw [levRec_cons, if_pos rfl]
    exact levRec_self xs

theorem levRec_comm (a b : List Char) : levRec a b = levRec b a := by
  have H : ∀ (n : Nat) (a b : List Char), a.length + b.length ≤ n →
      levRec a b = levRec b a := by
    intro n
    induction n with
    | zero =>
      intro a b h
      have ha : a = [] := List.length_eq_zero.mp (by omega)
      have hb : b = [] := List.length_eq_zero.mp (by omega)
      rw [ha, hb]
    | succ n ih =>
      intro a b h
      cases a with
      | nil => rw [levRec_nil_left, levRec_nil_right]
      | cons x xs =>
        cases b with
        | nil => rw [levRec_nil_left, levRec_nil_right]
        | cons y ys =>
          rw [levRec_cons, levRec_cons]
          by_cases hxy : x = y
          · rw [if_pos hxy, if_pos hxy.symm]
            exact ih xs ys (by simp only [List.length_cons] at h ⊢; omega)
          · rw [if_neg hxy, if_neg (fun hyx => hxy hyx.symm)]
            have h1 : levRec xs ys = levRec ys xs :=
              ih xs ys (by simp only [List.length_cons] at h ⊢; omega)
            have h2 : levRec (x :: xs) ys = levRec ys (x :: xs) :=
              ih (x :: xs) ys (by simp only [List.length_cons] at h ⊢; omega)
            have h3 : levRec xs (y :: ys) = levRec (y :: ys) xs :=
              ih xs (y :: ys) (by simp only [List.length_cons] at h ⊢; omega)
            rw [h1, h2, h3, min_comm (levRec ys (x :: xs)) (levRec (y :: ys) xs)]
  exact H (a.length + b.length) a b le_rfl

theorem levMatrix_eq (s t : List Char) :
    ∀ (gas i j : Nat), i ≤ t.length → j ≤ s.length → i + j < gas →
      levMatrix s t gas i j = levRec ((t.take i).reverse) ((s.take j).reverse) := by
  intro gas
  induction gas with
  | zero => intro i j _ _ h; omega
  | succ gas ih =>
    intro i j hi hj hlt
    cases i with
    | zero =>
      show (j : Nat) = _
      rw [List.take_zero, List.reverse_nil, levRec_nil_left]
      simp [List.length_take]
      omega
    | succ i =>
      cases j with
      | zero =>
        show (i + 1 : Nat) = _
        rw [List.take_zero, List.reverse_nil, levRec_nil_right]
        simp [List.length_take]
        omega
      | succ j =>
        have hti : i < t.length := by omega
        have hsj : j < s.length := by omega
        have htake : (t.take (i + 1)).reverse = t.getD i ' ' :: (t.take i).reverse := by
          rw [List.take_succ]
          simp [List.getElem?_eq_getElem hti, List.getD_eq_getElem?_getD,
            List.getElem?_eq_getElem hti]
        have hstake : (s.take (j + 1)).reverse = s.getD j ' ' :: (s.take j).reverse := by
          rw [List.take_succ]
          simp [List.getElem?_eq_getElem hsj, List.getD_eq_getElem?_getD,
            List.getElem?_eq_getElem hsj]
        have step : levMatrix s t (gas + 1) (i + 1) (j + 1) =
            if t.getD i ' ' = s.getD j ' ' then levMatrix s t gas i j
            else min (levMatrix s t gas i j + 1)
              (min (levMatrix s t gas (i + 1) j + 1)
                (levMatrix s t gas i (j + 1) + 1)) := rfl
        rw [step, htake, hstake, levRec_cons]
        by_cases hc : t.getD i ' ' = s.getD j ' '
        · rw [if_pos hc, if_pos hc, ih i j (by omega) (by omega) (by omega)]
        · rw [if_neg hc, if_neg hc, ih i j (by omega) (by omega) (by omega),
            ih (i + 1) j (by omega) (by omega) (by omega),
            ih i (j + 1) (by omega) (by omega) (by omega), ← htake, ← hstake]
          omega

/-- The source's DP matrix computes the textbook distance (on the reversed
inputs, which is how the prefix-indexed matrix reads off). -/
theorem levenshteinDistance_eq (str1 str2 : String) :
    levenshteinDistance str1 str2 = levRec str2.data.reverse str1.data.reverse := by
  rw [levenshteinDistance,
    levMatrix_eq str1.data str2.data (str2.length + str1.length + 1) str2.length str1.length
      le_rfl le_rfl (by omega)]
  rw [show str2.length = str2.data.length from rfl,
    show str1.length = str1.data.length from rfl, List.take_length, List.take_length]

theorem string_length_ne_zero {s : String} (h : s ≠ "") : s.length ≠ 0 := by
  intro h0
  apply h
  have : s.data = [] := List.length_eq_zero.mp h0
  cases s
  simp_all

/-- C6: `calculateSimilarity` returns 1 on any nonempty string paired with
itself, is symmetric, and returns 0 when its first argument is empty. -/
theorem calculateSimilarity_props :
    (∀ x : String, x ≠ "" → calculateSimilarity x x = 1) ∧
    (∀ x y : String, calculateSimilarity x y = calculateSimilarity y x) ∧
    (∀ y : String, y ≠ "" → calculateSimilarity "" y = 0) := by
  refine ⟨?_, ?_, ?_⟩
  · intro x hx
    have hlen : x.length ≠ 0 := string_length_ne_zero hx
    rw [calculateSimilarity]
    simp only [hx, decide_False, Bool.or_self, Bool.false_eq_true, if_false,
      lt_irrefl, ite_self]
    rw [if_neg hlen]
    rw [levenshteinDistance_eq, levRec_self]
    simp
    rw [div_self]
    exact Nat.cast_ne_zero.mpr hlen
  · intro x y
    by_cases hx : x = ""
    · by_cases hy : y = ""
      · rw [hx, hy]
      · rw [calculateSimilarity, calculateSimilarity]
        simp [hx, hy]
    · by_cases hy : y = ""
      · rw [calculateSimilarity, calculateSimilarity]
        simp [hx, hy]
      · rw [calculateSimilarity, calculateSimilarity]
        simp only [hx, hy, decide_False, Bool.or_false, Bool.false_or,
          Bool.false_eq_true, if_false]
        rcases lt_trichotomy x.length y.length with h | h | h
        · have hc1 : ¬ x.length > y.length := by omega
          have hc2 : y.length > x.length := by omega
          simp [hc1, hc2]
        · have hc1 : ¬ x.length > y.length := by omega
          have hc2 : ¬ y.length > x.length := by omega
          simp only [hc1, hc2, if_false]
          rw [levenshteinDistance_eq, levenshteinDistance_eq,
            levRec_comm x.data.reverse y.data.reverse, h]
        · have hc1 : x.length > y.length := by omega
          have hc2 : ¬ y.length > x.length := by omega
          simp [hc1, hc2]
  · intro y _
    rw [calculateSimilarity]
    simp

/-- C6 witness: the three properties at concrete strings. -/
theorem calculateSimilarity_props_witness :
    calculateSimilarity "account" "account" = 1 ∧
    calculateSimilarity "account" "acct" = calculateSimilarity "acct" "account" ∧
    calculateSimilarity "" "account" = 0 :=
  ⟨calculateSimilarity_props.1 "account" (by decide),
   calculateSimilarity_props.2.1 "account" "acct",
   calculateSimilarity_props.2.2 "account" (by decide)⟩

/-! ### Edit scripts and the triangle inequality (C7) -/

theorem nat_min3_cases (A B C : Nat) :
    min A (min B C) = A ∨ min A (min B C) = B ∨ min A (min B C) = C := by
  rcases min_cases A (min B C) with ⟨h, -⟩ | ⟨h, -⟩
  · exact Or.inl h
  · rcases min_cases B C with ⟨h2, -⟩ | ⟨h2, -⟩
    · exact Or.inr (Or.inl (h.trans h2))
    · exact Or.inr (Or.inr (h.trans h2))

theorem edits_trans : ∀ {m : Nat} {a b : List Char}, Edits m a b →
    ∀ {n : Nat} {c : List Char}, Edits n b c → Edits (m + n) a c := by
  intro m a b h1
  induction h1 with
  | refl l =>
    intro n c h2
    simpa using h2
  | step e _ ih =>
    intro n c h2
    have h3 := ih h2
    have heq : ∀ k j : Nat, k + 1 + j = (k + j) + 1 := by omega
    rw [heq]
    exact Edits.step e h3

theorem edits_snoc {n : Nat} {a b c : List Char} (h : Edits n a b) (e : Edit b c) :
    Edits (n + 1) a c :=
  edits_trans h (Edits.step e (Edits.refl c))

theorem edits_cons {n : Nat} {l l' : List Char} (x : Char) (h : Edits n l l') :
    Edits n (x :: l) (x :: l') := by
  induction h with
  | refl l => exact Edits.refl _
  | step e _ ih => exact Edits.step (Edit.cons x e) ih

theorem edits_build : ∀ b : List Char, Edits b.length [] b
  | [] => Edits.refl []
  | y :: ys => by
    have h := edits_snoc (edits_build ys) (Edit.ins y ys)
    simpa using h

theorem edits_erase : ∀ a : List Char, Edits a.length a []
  | [] => Edits.refl []
  | x :: xs => by
    have h := Edits.step (Edit.del x xs) (edits_erase xs)
    simpa using h

/-- The DP distance is achievable by an edit script of that exact length. -/
theorem edits_of_levRec (a b : List Char) : Edits (levRec a b) a b := by
  have H : ∀ (n : Nat) (a b : List Char), a.length + b.length ≤ n →
      Edits (levRec a b) a b := by
    intro n
    induction n with
    | zero =>
      intro a b h
      have ha : a = [] := List.length_eq_zero.mp (by omega)
      have hb : b = [] := List.length_eq_zero.mp (by omega)
      subst ha; subst hb
      rw [levRec_nil_left]
      exact Edits.refl []
    | succ n ih =>
      intro a b h
      cases a with
      | nil =>
        rw [levRec_nil_left]
        exact edits_build b
      | cons x xs =>
        cases b with
        | nil =>
          rw [levRec_nil_right]
          exact edits_erase (x :: xs)
        | cons y ys =>
          rw [levRec_cons]
          by_cases hxy : x = y
          · rw [if_pos hxy]
            subst hxy
            exact edits_cons x (ih xs ys (by simp only [List.length_cons] at h ⊢; omega))
          · rw [if_neg hxy]
            have hA : Edits (levRec xs ys) xs ys :=
              ih xs ys (by simp only [List.length_cons] at h ⊢; omega)
            have hB : Edits (levRec (x :: xs) ys) (x :: xs) ys :=
              ih (x :: xs) ys (by simp only [List.length_cons] at h ⊢; omega)
            have hC : Edits (levRec xs (y :: ys)) xs (y :: ys) :=
              ih xs (y :: ys) (by simp only [List.length_cons] at h ⊢; omega)
            have pathA : Edits (levRec xs ys + 1) (x :: xs) (y :: ys) :=
              Edits.step (Edit.sub x y xs) (edits_cons y hA)
            have pathB : Edits (levRec (x :: xs) ys + 1) (x :: xs) (y :: ys) :=
              edits_snoc hB (Edit.ins y ys)
            have pathC : Edits (levRec xs (y :: ys) + 1) (x :: xs) (y :: ys) :=
              Edits.step (Edit.del x xs) hC
            rcases nat_min3_cases (levRec xs ys) (levRec (x :: xs) ys)
              (levRec xs (y :: ys)) with hm | hm | hm
            · rw [hm, Nat.add_comm]; exact pathA
            · rw [hm, Nat.add_comm]; exact pathB
            · rw [hm, Nat.add_comm]; exact pathC
  exact H (a.length + b.length) a b le_rfl

theorem edit_length {a b : List Char} (h : Edit a b) :
    a.length ≤ b.length + 1 ∧ b.length ≤ a.length + 1 := by
  induction h with
  | ins x l => simp only [List.length_cons]; omega
  | del x l => simp only [List.length_cons]; omega
  | sub x y l => simp only [List.length_cons]; omega
  | cons x e ih => simp only [List.length_cons]; omega

/-- Removing or adding a head character changes the distance by at most one
(both directions, simultaneous strong induction on total length). -/
theorem levRec_cons_bounds :
    ∀ (n : Nat) (l c : List Char) (x : Char), l.length + c.length < n →
      levRec (x :: l) c ≤ 1 + levRec l c ∧ levRec l c ≤ 1 + levRec (x :: l) c := by
  intro n
  induction n with
  | zero => intro l c x h; omega
  | succ n ih =>
    intro l c x h
    constructor
    · cases c with
      | nil =>
        rw [levRec_nil_right, levRec_nil_right]
        simp only [List.length_cons]
        omega
      | cons z zs =>
        rw [levRec_cons]
        by_cases hxz : x = z
        · rw [if_pos hxz]
          have hsym := (ih zs l z (by simp only [List.length_cons] at h ⊢; omega)).2
          calc levRec l zs = levRec zs l := levRec_comm _ _
            _ ≤ 1 + levRec (z :: zs) l := hsym
            _ = 1 + levRec l (z :: zs) := by rw [levRec_comm]
        · rw [if_neg hxz]
          have hmin : min (levRec l zs)
              (min (levRec (x :: l) zs) (levRec l (z :: zs))) ≤ levRec l (z :: zs) :=
            le_trans (min_le_right _ _) (min_le_right _ _)
          omega
    · cases c with
      | nil =>
        rw [levRec_nil_right, levRec_nil_right]
        simp only [List.length_cons]
        omega
      | cons z zs =>
        by_cases hxz : x = z
        · rw [levRec_cons, if_pos hxz]
          have hsym := (ih zs l z (by simp only [List.length_cons] at h ⊢; omega)).1
          calc levRec l (z :: zs) = levRec (z :: zs) l := levRec_comm _ _
            _ ≤ 1 + levRec zs l := hsym
            _ = 1 + levRec l zs := by rw [levRec_comm]
        · rw [levRec_cons, if_neg hxz]
          have t1 : levRec l (z :: zs) ≤ 1 + levRec l zs := by
            have hsym := (ih zs l z (by simp only [List.length_cons] at h ⊢; omega)).1
            calc levRec l (z :: zs) = levRec (z :: zs) l := levRec_comm _ _
              _ ≤ 1 + levRec zs l := hsym
              _ = 1 + levRec l zs := by rw [levRec_comm]
          have t3 : levRec l zs ≤ 1 + levRec (x :: l) zs :=
            (ih l zs x (by simp only [List.length_cons] at h ⊢; omega)).2
          rcases nat_min3_cases (levRec l zs) (levRec (x :: l) zs)
            (levRec l (z :: zs)) with hm | hm | hm <;> omega

/-- Substituting the head character changes the distance by at most one. -/
theorem levRec_sub_le (x y : Char) (l c : List Char) :
    levRec (x :: l) c ≤ 1 + levRec (y :: l) c := by
  cases c with
  | nil =>
    rw [levRec_nil_right, levRec_nil_right]
    simp only [List.length_cons]
    omega
  | cons z zs =>
    have L1zs : levRec l zs ≤ 1 + levRec (y :: l) zs :=
      (levRec_cons_bounds (l.length + zs.length + 1) l zs y (by omega)).2
    have L2r : levRec l zs ≤ 1 + levRec l (z :: zs) := by
      have hsym := (levRec_cons_bounds (zs.length + l.length + 1) zs l z (by omega)).2
      calc levRec l zs = levRec zs l := levRec_comm _ _
        _ ≤ 1 + levRec (z :: zs) l := hsym
        _ = 1 + levRec l (z :: zs) := by rw [levRec_comm]
    by_cases hyz : y = z
    · rw [levRec_cons y, if_pos hyz]
      by_cases hxz : x = z
      · rw [levRec_cons, if_pos hxz]
        omega
      · rw [levRec_cons, if_neg hxz]
        have hmin : min (levRec l zs)
            (min (levRec (x :: l) zs) (levRec l (z :: zs))) ≤ levRec l zs :=
          min_le_left _ _
        omega
    · rw [levRec_cons y, if_neg hyz]
      by_cases hxz : x = z
      · rw [levRec_cons, if_pos hxz]
        rcases nat_min3_cases (levRec l zs) (levRec (y :: l) zs)
          (levRec l (z :: zs)) with hm | hm | hm <;> omega
      · rw [levRec_cons, if_neg hxz]
        have m1 : min (levRec l zs)
            (min (levRec (x :: l) zs) (levRec l (z :: zs))) ≤ levRec l zs :=
          min_le_left _ _
        have m3 : min (levRec l zs)
            (min (levRec (x :: l) zs) (levRec l (z :: zs))) ≤ levRec l (z :: zs) :=
          le_trans (min_le_right _ _) (min_le_right _ _)
        rcases nat_min3_cases (levRec l zs) (levRec (y :: l) zs)
          (levRec l (z :: zs)) with hm | hm | hm <;> omega

/-- One elementary edit on the left argument changes the distance to any
third list by at most one. -/
theorem edit_levRec_bound : ∀ {a b : List Char}, Edit a b →
    ∀ c : List Char, levRec a c ≤ 1 + levRec b c := by
  intro a b e
  induction e with
  | ins x l =>
    intro c
    exact (levRec_cons_bounds (l.length + c.length + 1) l c x (by omega)).2
  | del x l =>
    intro c
    exact (levRec_cons_bounds (l.length + c.length + 1) l c x (by omega)).1
  | sub x y l =>
    intro c
    exact levRec_sub_le x y l c
  | @cons x l l' e ih =>
    intro c
    induction c with
    | nil =>
      rw [levRec_nil_right, levRec_nil_right]
      have := (edit_length e).1
      simp only [List.length_cons]
      omega
    | cons z zs ihc =>
      by_cases hxz : x = z
      · rw [levRec_cons, if_pos hxz, levRec_cons, if_pos hxz]
        have := ih zs
        omega
      · rw [levRec_cons, if_neg hxz, levRec_cons, if_neg hxz]
        have hA := ih zs
        have hC := ih (z :: zs)
        have hB := ihc
        have m1 : min (levRec l zs)
            (min (levRec (x :: l) zs) (levRec l (z :: zs))) ≤ levRec l zs :=
          min_le_left _ _
        have m2 : min (levRec l zs)
            (min (levRec (x :: l) zs) (levRec l (z :: zs))) ≤ levRec (x :: l) zs :=
          le_trans (min_le_right _ _) (min_le_left _ _)
        have m3 : min (levRec l zs)
            (min (levRec (x :: l) zs) (levRec l (z :: zs))) ≤ levRec l (z :: zs) :=
          le_trans (min_le_right _ _) (min_le_right _ _)
        rcases nat_min3_cases (levRec l' zs) (levRec (x :: l') zs)
          (levRec l' (z :: zs)) with hm | hm | hm <;> omega

/-- The DP distance is a lower bound on the length of every edit script. -/
theorem levRec_le_edits : ∀ {n : Nat} {a b : List Char}, Edits n a b → levRec a b ≤ n := by
  intro n a b h
  induction h with
  | refl l => rw [levRec_self]
  | @step a' b' c' n' e rest ih =>
    have := edit_levRec_bound e c'
    omega

theorem levRec_triangle (a b c : List Char) : levRec a c ≤ levRec a b + levRec b c :=
  levRec_le_edits (edits_trans (edits_of_levRec a b) (edits_of_levRec b c))

/-- C7: `levenshteinDistance` satisfies the triangle inequality. -/
theorem levenshteinDistance_triangle (a b c : String) :
    levenshteinDistance a b ≤ levenshteinDistance a c + levenshteinDistance c b := by
  rw [levenshteinDistance_eq, levenshteinDistance_eq, levenshteinDistance_eq]
  calc levRec b.data.reverse a.data.reverse ≤
      levRec b.data.reverse c.data.reverse + levRec c.data.reverse a.data.reverse :=
        levRec_triangle _ _ _
    _ = levRec c.data.reverse a.data.reverse + levRec b.data.reverse c.data.reverse :=
        Nat.add_comm _ _

end OrionSpec
